import Mathlib

/-!
# Verification of the yolo_interpolation people-counting system

Shallow embedding of the core algorithms of the repository:

* `sort_tracker.py` (`SortTracker.update`): centroid association.
* `people_tracker.py` (`PeopleTracker`): zone classification with rotation
  correction, and the entry/exit counting state machine.
* `person_filter.py` (`PersonFilter.is_store_staff`): the staff filter.
* `ffmpeg_capture.py`: health check, restart rate limiting, heartbeat-log
  folder monitor, and log-based segment selection.
* `video_processor.py` (`process_video`): heartbeat-entry removal.

Machine integers of the source are modelled as `Int`/`Nat`; the line
coefficients computed by `math.sin`/`math.cos` are taken as rational
parameters of the configuration, and Euclidean distances are compared through
their (integer) squares, which preserves both the ordering used by the
association sort and the `max_distance` threshold test.
-/

namespace YoloCount

/-! ## List helpers -/

/-- Least element of a list of integers (`0` for the empty list). -/
def listMin : List Int → Int
  | [] => 0
  | x :: xs => xs.foldl min x

/-- Auxiliary loop for `argminL`: `i` is the index of the next element,
`best`/`bv` the index and value of the least element seen so far. -/
def argminAux : List Int → Nat → Nat → Int → Nat
  | [], _, best, _ => best
  | x :: xs, i, best, bv =>
    if x < bv then argminAux xs (i + 1) i x else argminAux xs (i + 1) best bv

/-- Index of the first minimal element of a list (numpy `argmin` returns the
first occurrence of the minimum). -/
def argminL : List Int → Nat
  | [] => 0
  | x :: xs => argminAux xs 1 0 x

/-- Insert `x` into a list sorted by `key`, after all entries whose key is
not greater: combined with `keySort` this gives a stable ascending sort. -/
def insKey {α : Type} (key : α → Int) (x : α) : List α → List α
  | [] => [x]
  | y :: ys => if key x < key y then x :: y :: ys else y :: insKey key x ys

/-- Stable insertion sort by an integer key (elements with equal keys keep
their original relative order, the tie-break demanded by the tracker's
determinism requirement). -/
def keySort {α : Type} (key : α → Int) (l : List α) : List α :=
  l.foldl (fun acc x => insKey key x acc) []

/-! ## SortTracker (`sort_tracker.py`) -/

/-- A detection bounding box `(x1, y1, x2, y2)` (the confidence value is
dropped by `update_tracking_and_count` before reaching the tracker). -/
structure Rect where
  x1 : Int
  y1 : Int
  x2 : Int
  y2 : Int
deriving Repr, DecidableEq

/-- Python's `int((a + b) / 2.0)`: truncation toward zero. -/
def pyMid (a b : Int) : Int := Int.tdiv (a + b) 2

/-- Centroid of a box, as computed in `SortTracker.update`. -/
def centroidOf (r : Rect) : Int × Int := (pyMid r.x1 r.x2, pyMid r.y1 r.y2)

/-- Squared Euclidean distance between two centroids; comparisons of the
source's `scipy.spatial.distance.cdist` values are order-equivalent to
comparisons of these squares. -/
def distSq (p q : Int × Int) : Int := (p.1 - q.1) ^ 2 + (p.2 - q.2) ^ 2

/-- One tracked object: its id, centroid and `disappeared` counter
(`objects`/`disappeared` are two `OrderedDict`s over the same keys in the
source; they are fused here, keeping insertion order). -/
structure Track where
  id : Nat
  cx : Int
  cy : Int
  missed : Nat
deriving Repr, DecidableEq

/-- The `SortTracker` state. -/
structure SortState where
  tracks : List Track
  nextId : Nat
  maxDisappeared : Nat
  maxDistance : Nat
deriving Repr, DecidableEq

/-- Distances from one track centroid to every detection centroid
(one row of the matrix `D`). -/
def rowDists (tc : Int × Int) (dcs : List (Int × Int)) : List Int :=
  dcs.map (fun d => distSq tc d)

/-- `D.min(axis=1)` for one row. -/
def rowMinOf (tcs dcs : List (Int × Int)) (r : Nat) : Int :=
  listMin (rowDists (tcs.getD r (0, 0)) dcs)

/-- `rows = D.min(axis=1).argsort()`: the row indices ordered by their least
distance to any detection. -/
def sortedRows (tcs dcs : List (Int × Int)) : List Nat :=
  keySort (rowMinOf tcs dcs) (List.range tcs.length)

/-- The association loop of `SortTracker.update`: walk the `(row, col)`
candidates, skipping a pair whenever its row or column was already used or
its distance exceeds `max_distance`, and commit it otherwise. -/
def commitLoop (tcs dcs : List (Int × Int)) (maxDist : Nat) :
    List (Nat × Nat) → List (Nat × Nat) → List (Nat × Nat)
  | [], acc => acc.reverse
  | (r, c) :: rest, acc =>
    if r ∈ acc.map Prod.fst ∨ c ∈ acc.map Prod.snd then
      commitLoop tcs dcs maxDist rest acc
    else if distSq (tcs.getD r (0, 0)) (dcs.getD c (0, 0)) > (maxDist : Int) ^ 2 then
      commitLoop tcs dcs maxDist rest acc
    else
      commitLoop tcs dcs maxDist rest ((r, c) :: acc)

/-- The committed `(row, col)` association pairs of `SortTracker.update`:
rows sorted by their minimum distance, each paired with
`cols = D.argmin(axis=1)[rows]`, then filtered by the loop. -/
def commitPairs (tcs dcs : List (Int × Int)) (maxDist : Nat) : List (Nat × Nat) :=
  commitLoop tcs dcs maxDist
    ((sortedRows tcs dcs).map fun r => (r, argminL (rowDists (tcs.getD r (0, 0)) dcs))) []

/-- Association pairs keyed by object id (`object_id = object_ids[row]`). -/
def matchedIdPairs (tracks : List Track) (ps : List (Nat × Nat)) : List (Nat × Nat) :=
  ps.map fun p => ((tracks.getD p.1 ⟨0, 0, 0, 0⟩).id, p.2)

/-- The ids of the matched tracks. -/
def matchedIds (tracks : List Track) (ps : List (Nat × Nat)) : List Nat :=
  (matchedIdPairs tracks ps).map Prod.fst

/-- Assoc-list search over id/column pairs. -/
def pairFind : List (Nat × Nat) → Nat → Option Nat
  | [], _ => none
  | p :: rest, i => if p.1 = i then some p.2 else pairFind rest i

/-- `self.objects[object_id] = input_centroids[col]; self.disappeared[object_id] = 0`
for every committed pair. -/
def applyCommits (tracks : List Track) (dcs : List (Int × Int))
    (idPairs : List (Nat × Nat)) : List Track :=
  tracks.map fun t =>
    match pairFind idPairs t.id with
    | some c => { t with cx := (dcs.getD c (0, 0)).1, cy := (dcs.getD c (0, 0)).2, missed := 0 }
    | none => t

/-- Branch `D.shape[0] >= D.shape[1]`: every unmatched track's counter is
incremented, and tracks strictly past `max_disappeared` are deregistered
(matched tracks carry counter `0`, which the filter always keeps). -/
def ageUnmatched (tracks : List Track) (mids : List Nat) (maxDis : Nat) : List Track :=
  (tracks.map fun t => if t.id ∈ mids then t else { t with missed := t.missed + 1 }).filter
    fun t => decide (t.missed ≤ maxDis)

/-- `register` folded over a list of centroids. -/
def registerAll (s : SortState) (cs : List (Int × Int)) : SortState :=
  cs.foldl
    (fun st c =>
      { st with tracks := st.tracks ++ [⟨st.nextId, c.1, c.2, 0⟩], nextId := st.nextId + 1 })
    s

/-- The detection columns left unclaimed by the association. -/
def unusedCols (m : Nat) (ps : List (Nat × Nat)) : List Nat :=
  (List.range m).filter fun c => decide (c ∉ ps.map Prod.snd)

/-- `SortTracker.update`. -/
def sortUpdate (s : SortState) (rects : List Rect) : SortState :=
  if rects.isEmpty then
    { s with
      tracks :=
        (s.tracks.map fun t => { t with missed := t.missed + 1 }).filter fun t =>
          decide (t.missed ≤ s.maxDisappeared) }
  else
    let dcs := rects.map centroidOf
    if s.tracks.isEmpty then registerAll s dcs
    else
      let tcs := s.tracks.map fun t => (t.cx, t.cy)
      let ps := commitPairs tcs dcs s.maxDistance
      let updated := applyCommits s.tracks dcs (matchedIdPairs s.tracks ps)
      if dcs.length ≤ tcs.length then
        { s with tracks := ageUnmatched updated (matchedIds s.tracks ps) s.maxDisappeared }
      else
        registerAll { s with tracks := updated }
          ((unusedCols dcs.length ps).map fun c => dcs.getD c (0, 0))

/-! ## Reference association algorithms (claim C5) -/

/-- All `(row, col)` index pairs in row-major order. -/
def allPairs (n m : Nat) : List (Nat × Nat) :=
  (List.range n).flatMap fun r => (List.range m).map fun c => (r, c)

/-- Loop of the spec-mandated greedy assignment. -/
def specGreedyLoop (tcs dcs : List (Int × Int)) (maxDist : Nat) :
    List (Nat × Nat) → List Nat → List Nat → List (Nat × Nat)
  | [], _, _ => []
  | (r, c) :: rest, usedR, usedC =>
    if r ∈ usedR ∨ c ∈ usedC then specGreedyLoop tcs dcs maxDist rest usedR usedC
    else if distSq (tcs.getD r (0, 0)) (dcs.getD c (0, 0)) > (maxDist : Int) ^ 2 then
      specGreedyLoop tcs dcs maxDist rest usedR usedC
    else (r, c) :: specGreedyLoop tcs dcs maxDist rest (r :: usedR) (c :: usedC)

/-- Modelled from the spec's words (claim C5): "process candidate pairs in
ascending distance order, committing a pair only if both the track and
detection are still unclaimed and distance ≤ `max_distance`" — ALL
`(track, detection)` pairs are candidates, stably ordered by distance with
ties broken by original index. -/
def specGreedyAssign (tcs dcs : List (Int × Int)) (maxDist : Nat) : List (Nat × Nat) :=
  specGreedyLoop tcs dcs maxDist
    (keySort (fun p => distSq (tcs.getD p.1 (0, 0)) (dcs.getD p.2 (0, 0)))
      (allPairs tcs.length dcs.length))
    [] []

/-- Loop of the row-greedy reference: each track row is considered only with
its own nearest detection, and is dropped entirely when that detection is
claimed or too far. -/
def rowGreedyLoop (tcs dcs : List (Int × Int)) (maxDist : Nat) :
    List Nat → List Nat → List (Nat × Nat)
  | [], _ => []
  | r :: rest, usedC =>
    let c := argminL (rowDists (tcs.getD r (0, 0)) dcs)
    if c ∈ usedC then rowGreedyLoop tcs dcs maxDist rest usedC
    else if distSq (tcs.getD r (0, 0)) (dcs.getD c (0, 0)) > (maxDist : Int) ^ 2 then
      rowGreedyLoop tcs dcs maxDist rest usedC
    else (r, c) :: rowGreedyLoop tcs dcs maxDist rest (c :: usedC)

/-- The association policy `SortTracker.update` actually implements
(amended claim C5): process the tracks in ascending order of their minimum
distance to any detection, pairing each with its nearest detection only. -/
def rowGreedyRef (tcs dcs : List (Int × Int)) (maxDist : Nat) : List (Nat × Nat) :=
  rowGreedyLoop tcs dcs maxDist (sortedRows tcs dcs) []

/-! ## Exact rational arithmetic helpers

`Rat.mul`, `Rat.add` and `Rat.neg` are `@[irreducible]` in this toolchain,
which blocks kernel evaluation of concrete instances; these helpers compute
the same exact rational values through `mkRat`. -/

/-- Exact rational multiplication. -/
def ratMul (a b : ℚ) : ℚ := mkRat (a.num * b.num) (a.den * b.den)

/-- Exact rational addition. -/
def ratAdd (a b : ℚ) : ℚ := mkRat (a.num * (b.den : Int) + b.num * (a.den : Int)) (a.den * b.den)

/-- Exact rational negation. -/
def ratNeg (a : ℚ) : ℚ := mkRat (-a.num) a.den

/-- Decidable strict order on the rationals. -/
def ratLt (a b : ℚ) : Bool := Rat.blt a b

/-- Decidable order on the rationals. -/
def ratLe (a b : ℚ) : Bool := !Rat.blt b a

/-! ## PeopleTracker (`people_tracker.py`) -/

/-- Zone labels: `side_A`/`side_B` for the angular line, `above`/`below` for
the legacy horizontal line, and the shared `buffer` dead zone. -/
inductive Zone
  | sideA
  | sideB
  | above
  | below
  | buffer
deriving Repr, DecidableEq

/-- `PeopleTracker` configuration.  `lineA`, `lineB`, `lineC` are the
half-plane coefficients precomputed by `setup_angular_line` from
`sin`/`cos` of the configured angle; `lineY` is the absolute y of the legacy
horizontal line. -/
structure PTConfig where
  isAngular : Bool
  entryInverted : Bool
  lineA : ℚ
  lineB : ℚ
  lineC : ℚ
  lineBuffer : Int
  roiX1 : Int
  roiY1 : Int
  roiX2 : Int
  roiY2 : Int
  rotation : Nat
  lineY : Int
  filterThreshold : ℚ
deriving Repr, DecidableEq

/-- The rotation correction of `_get_object_zone_angular`: map a centroid of
the cropped-and-rotated ROI image back to absolute frame coordinates. -/
def rotCorrect (cfg : PTConfig) (cx cy : Int) : Int × Int :=
  let w := cfg.roiX2 - cfg.roiX1
  let h := cfg.roiY2 - cfg.roiY1
  if cfg.rotation = 180 then ((w - cx) + cfg.roiX1, (h - cy) + cfg.roiY1)
  else if cfg.rotation = 90 then (cy + cfg.roiX1, (w - cx) + cfg.roiY1)
  else if cfg.rotation = 270 then ((h - cy) + cfg.roiX1, cx + cfg.roiY1)
  else (cx + cfg.roiX1, cy + cfg.roiY1)

/-- `_get_object_zone_angular`: signed distance
`line_a * x + line_b * y + line_c` tested against the buffer band. -/
def zoneAngular (cfg : PTConfig) (cx cy : Int) : Zone :=
  let p := rotCorrect cfg cx cy
  let d : ℚ :=
    ratAdd (ratAdd (ratMul cfg.lineA (Rat.ofInt p.1)) (ratMul cfg.lineB (Rat.ofInt p.2)))
      cfg.lineC
  if ratLt (Rat.ofInt cfg.lineBuffer) d then .sideA
  else if ratLt d (ratNeg (Rat.ofInt cfg.lineBuffer)) then .sideB
  else .buffer

/-- `_get_object_zone_horizontal` (the legacy y-threshold test). -/
def zoneHorizontal (cfg : PTConfig) (cy : Int) : Zone :=
  let lineYroi := cfg.lineY - cfg.roiY1
  if cy < lineYroi - cfg.lineBuffer then .above
  else if cy > lineYroi + cfg.lineBuffer then .below
  else .buffer

/-- Zone of a centroid under the configured line type. -/
def zoneOf (cfg : PTConfig) (cx cy : Int) : Zone :=
  if cfg.isAngular then zoneAngular cfg cx cy else zoneHorizontal cfg cy

/-! ## PersonFilter (`person_filter.py`) -/

/-- Outcome of one staff-filter query.  `disabled` covers a disabled filter
and an absent or unloadable model file (`load_model` clears `enabled`);
`noSession` the `session is None` guard; `roiFail` a failed person-ROI
extraction; `inferError` an exception anywhere in the `try` block; and
`classified conf` a completed inference whose predicted class has softmax
probability `conf`. -/
inductive FilterOutcome
  | disabled
  | noSession
  | roiFail
  | inferError
  | classified (conf : ℚ)
deriving Repr, DecidableEq

/-- `PersonFilter.is_store_staff`: the returned `(is_staff, confidence)`. -/
def isStoreStaff (threshold : ℚ) : FilterOutcome → Bool × ℚ
  | .disabled => (false, 0)
  | .noSession => (false, 0)
  | .roiFail => (false, 0)
  | .inferError => (false, 0)
  | .classified conf => (ratLe threshold conf, conf)

/-! ## The counting state machine of `update_tracking_and_count` -/

/-- Per-object status dictionary entry. -/
structure ObjStatus where
  lastZone : Zone
  lastCountingZone : Option Zone
deriving Repr, DecidableEq

/-- `PeopleTracker` mutable counting state. -/
structure PTState where
  entryCount : Nat
  exitCount : Nat
  status : List (Nat × ObjStatus)
deriving Repr, DecidableEq

/-- Dictionary read (`tracked_objects_status` keyed by object id). -/
def statusFind : List (Nat × ObjStatus) → Nat → Option ObjStatus
  | [], _ => none
  | q :: rest, i => if q.1 = i then some q.2 else statusFind rest i

/-- Dictionary write: replace in place, else append. -/
def statusSet : List (Nat × ObjStatus) → Nat → ObjStatus → List (Nat × ObjStatus)
  | [], i, v => [(i, v)]
  | q :: rest, i, v => if q.1 = i then (i, v) :: rest else q :: statusSet rest i v

/-- The loop body of `update_tracking_and_count` for one tracked object.

The crossing counters are only touched inside the legacy (horizontal)
branch: in the source the `if entry_detected:` block at line 226 is
indented under the `else:` of line 220, so the angular branch computes
`entry_detected`/`exit_detected` (and swaps them under `entry_inverted`)
without ever consuming them. -/
def objProcess (cfg : PTConfig) (frame : Option FilterOutcome) (st : PTState)
    (objectId : Nat) (cx cy : Int) : PTState :=
  let currentZone := zoneOf cfg cx cy
  match statusFind st.status objectId with
  | none =>
    { st with
      status := statusSet st.status objectId
        ⟨currentZone, if currentZone ≠ Zone.buffer then some currentZone else none⟩ }
  | some obj =>
    let last := obj.lastCountingZone
    let counts :=
      if currentZone ≠ Zone.buffer ∧ last ≠ none ∧ some currentZone ≠ last then
        if cfg.isAngular then
          (st.entryCount, st.exitCount)
        else
          let entryDetected := last = some Zone.above ∧ currentZone = Zone.below
          let exitDetected := last = some Zone.below ∧ currentZone = Zone.above
          if entryDetected then
            match frame with
            | some fo =>
              if (isStoreStaff cfg.filterThreshold fo).1 then (st.entryCount, st.exitCount)
              else (st.entryCount + 1, st.exitCount)
            | none => (st.entryCount + 1, st.exitCount)
          else if exitDetected then
            match frame with
            | some fo =>
              if (isStoreStaff cfg.filterThreshold fo).1 then (st.entryCount, st.exitCount)
              else (st.entryCount, st.exitCount + 1)
            | none => (st.entryCount, st.exitCount + 1)
          else (st.entryCount, st.exitCount)
      else (st.entryCount, st.exitCount)
    { entryCount := counts.1
      exitCount := counts.2
      status :=
        statusSet st.status objectId
          ⟨currentZone,
            if currentZone ≠ Zone.buffer then some currentZone else obj.lastCountingZone⟩ }

/-- `update_tracking_and_count`: run the tracker, process every tracked
object, then purge status entries of inactive ids. -/
def ptUpdate (cfg : PTConfig) (sd : SortState × PTState) (dets : List Rect)
    (frame : Option FilterOutcome) : SortState × PTState :=
  let ss := sortUpdate sd.1 dets
  let ts := ss.tracks.foldl (fun a t => objProcess cfg frame a t.id t.cx t.cy) sd.2
  let activeIds := ss.tracks.map Track.id
  (ss, { ts with status := ts.status.filter fun q => decide (q.1 ∈ activeIds) })

/-- A whole processed clip: one `update_tracking_and_count` call per frame. -/
def runFrames (cfg : PTConfig) (sd : SortState × PTState)
    (frames : List (List Rect × Option FilterOutcome)) : SortState × PTState :=
  frames.foldl (fun a f => ptUpdate cfg a f.1 f.2) sd

/-! ## Rotation geometry (`detection_engine.py` and `people_tracker.py`) -/

/-- Pixel mapping of `_rotate_frame` (`cv2.rotate`) on a `w × h` image: the
pixel at `(x, y)` of the input appears at `rotForward rot w h (x, y)` of the
rotated output (standard `cv2.ROTATE_90_CLOCKWISE` / `ROTATE_180` /
`ROTATE_90_COUNTERCLOCKWISE` semantics on pixel indices). -/
def rotForward (rotation : Nat) (w h : Int) (p : Int × Int) : Int × Int :=
  if rotation = 90 then (h - 1 - p.2, p.1)
  else if rotation = 180 then (w - 1 - p.1, h - 1 - p.2)
  else if rotation = 270 then (p.2, w - 1 - p.1)
  else p

/-- The ROI-local part of the tracker's rotation correction (the
`corrected_x`/`corrected_y` computation of `_get_object_zone_angular`,
before the absolute-frame offset is added); `w`/`h` are the original ROI
width and height. -/
def trackerCorrect (rotation : Nat) (w h : Int) (p : Int × Int) : Int × Int :=
  if rotation = 180 then (w - p.1, h - p.2)
  else if rotation = 90 then (p.2, w - p.1)
  else if rotation = 270 then (h - p.2, p.1)
  else p

/-! ## Heartbeat log and segment selection (`ffmpeg_capture.py`) -/

/-- One parsed `filename|timestamp` heartbeat line (timestamps in seconds). -/
structure LogEntry where
  filename : String
  ts : Int
deriving Repr, DecidableEq

/-- The qualification test of `get_oldest_video_for_processing`: the entry is
at least 30 seconds old and the segment file still exists. -/
def entryQualifies (existing : List String) (now : Int) (e : LogEntry) : Bool :=
  decide (30 ≤ now - e.ts) && decide (e.filename ∈ existing)

/-- Python's `min(..., key=lambda x: x[1])`: first element with the least
timestamp. -/
def minByTs : List LogEntry → Option LogEntry
  | [] => none
  | e :: es => some (es.foldl (fun b x => if x.ts < b.ts then x else b) e)

/-- `get_oldest_video_for_processing` (the log-based definition at line 204,
which shadows the mtime-based one): filter the parsed entries by age and
file existence, and return the oldest. -/
def getOldestVideo (entries : List LogEntry) (existing : List String) (now : Int) :
    Option String :=
  (minByTs (entries.filter (entryQualifies existing now))).map LogEntry.filename

/-! ## Watchdog health check and restart limiter (`ffmpeg_capture.py`) -/

/-- The watchdog-relevant state of `FFmpegCapture`. -/
structure WatchState where
  processStart : Option Int
  newestLogged : Option Int
  lastRestartTime : Option Int
deriving Repr, DecidableEq

/-- `is_ffmpeg_healthy`: 20 s grace without a heartbeat, 30 s staleness
bound with one. -/
def isFfmpegHealthy (now : Int) (st : WatchState) : Bool :=
  match st.processStart with
  | none => false
  | some ps =>
    match st.newestLogged with
    | none => decide (now - ps ≤ 20)
    | some ts => decide (now - ts ≤ 30)

/-- Outcome of one `restart_ffmpeg` call. -/
inductive RestartOutcome
  | skipped
  | restarted
  | restartFailed
deriving Repr, DecidableEq

/-- Watchdog event-log line types appended during a restart attempt. -/
inductive WatchEvent
  | SKIP
  | RESTART
  | SUCCESS
  | FAILED
  | UNHEALTHY
deriving Repr, DecidableEq

/-- Event lines appended for each outcome. -/
def eventsOf : RestartOutcome → List WatchEvent
  | .skipped => [.SKIP]
  | .restarted => [.RESTART, .SUCCESS]
  | .restartFailed => [.RESTART, .FAILED]

/-- `restart_ffmpeg`: refuse (log `SKIP`) within 10 s of the last successful
restart; otherwise kill and relaunch, recording `current_time` as the new
`last_restart_time` only on success. -/
def restartFfmpeg (now : Int) (startOk : Bool) (lastRestart : Option Int) :
    Option Int × RestartOutcome :=
  match lastRestart with
  | some t =>
    if now - t < 10 then (some t, .skipped)
    else if startOk then (some now, .restarted)
    else (some t, .restartFailed)
  | none => if startOk then (some now, .restarted) else (none, .restartFailed)

/-- One iteration of `watchdog_loop`: on an unhealthy check, log `UNHEALTHY`
and attempt a restart (which also renews `process_start_time` on success and
clears it on a failed relaunch). -/
def watchdogStep (now : Int) (startOk : Bool) (st : WatchState) :
    WatchState × List WatchEvent :=
  if isFfmpegHealthy now st then (st, [])
  else
    let r := restartFfmpeg now startOk st.lastRestartTime
    ({ st with
        lastRestartTime := r.1
        processStart :=
          match r.2 with
          | .restarted => some now
          | .restartFailed => none
          | .skipped => st.processStart },
      WatchEvent.UNHEALTHY :: eventsOf r.2)

/-- Fold `restart_ffmpeg` over a sequence of attempts `(time, launch-ok)`,
collecting the times of the successful restarts. -/
def runRestarts (attempts : List (Int × Bool)) (last : Option Int) :
    Option Int × List Int :=
  attempts.foldl
    (fun acc a =>
      let r := restartFfmpeg a.1 a.2 acc.1
      (r.1, acc.2 ++ if r.2 = RestartOutcome.restarted then [a.1] else []))
    (last, [])

/-! ## Folder monitor (`monitor_output_folder`) -/

/-- One observation of a candidate segment file by the folder monitor:
two size reads one second apart (`readOk = false` models an exception in
`os.path.getsize`). -/
structure SizeObs where
  file : String
  ts : Int
  size1 : Int
  size2 : Int
  readOk : Bool
deriving Repr, DecidableEq

/-- The stability condition of `monitor_output_folder`:
`size1 == size2 and size1 > 50000`. -/
def obsStable (o : SizeObs) : Bool :=
  o.readOk && decide (o.size1 = o.size2) && decide (50000 < o.size1)

/-- Monitor-loop state: the `processed_files` set and the heartbeat log. -/
structure MonitorState where
  processed : List String
  log : List LogEntry
deriving Repr, DecidableEq

/-- One file check of the monitor loop: a stable, large-enough new file is
appended to the heartbeat log (`log_file_created`) and remembered. -/
def monitorStep (st : MonitorState) (o : SizeObs) : MonitorState :=
  if o.file ∈ st.processed then st
  else if obsStable o then ⟨o.file :: st.processed, st.log ++ [⟨o.file, o.ts⟩]⟩
  else st

/-- The monitor loop folded over a sequence of observations, starting from
an empty log. -/
def runMonitor (obs : List SizeObs) : MonitorState :=
  obs.foldl monitorStep ⟨[], []⟩

/-! ## Consumer side (`video_processor.py`) -/

/-- `_remove_from_watchdog_log`: drop every line starting `filename|`. -/
def removeFromWatchdogLog (filename : String) (lines : List String) : List String :=
  lines.filter fun l => !(l.startsWith (filename ++ "|"))

/-- How a `process_video` call turns out: the capture could not be opened
(`unreadable`), the clip was processed to the end (`processedOk`), or an
exception interrupted the frame loop (`errorDuring`). -/
inductive VideoOutcome
  | unreadable
  | processedOk
  | errorDuring
deriving Repr, DecidableEq

/-- The filesystem state `process_video` touches. -/
structure ConsumerFS where
  logLines : List String
  videoPresent : Bool
deriving Repr, DecidableEq

/-- `process_video`'s effect on the heartbeat log and the segment file, and
its return value: only the unreadable branch calls
`_remove_from_watchdog_log`; the successful branch deletes the video file
but leaves the log untouched. -/
def processVideo (o : VideoOutcome) (filename : String) (fs : ConsumerFS) :
    ConsumerFS × Bool :=
  match o with
  | .unreadable => (⟨removeFromWatchdogLog filename fs.logLines, false⟩, true)
  | .processedOk => (⟨fs.logLines, false⟩, true)
  | .errorDuring => (fs, false)

/-- A concrete angular configuration: line through (50, 0) at 90°
(coefficients a = sin 90° = 1, b = -cos 90° = 0, c = -50), buffer ±5,
`entry_inverted = false`, ROI 200 × 100 at the origin, no rotation. -/
def cfgA : PTConfig :=
  ⟨true, false, 1, 0, -50, 5, 0, 0, 200, 100, 0, 0, mkRat 7 10⟩

/-- A concrete legacy horizontal configuration: line at absolute y = 50,
buffer ±5, same ROI. -/
def cfgH : PTConfig :=
  ⟨false, false, 0, 0, 0, 5, 0, 0, 200, 100, 0, 50, mkRat 7 10⟩

/-- The fold inside `minByTs` returns a member of `e :: es`. -/
theorem minFold_mem (e : LogEntry) (es : List LogEntry) :
    es.foldl (fun b x => if x.ts < b.ts then x else b) e ∈ e :: es := by
  induction es generalizing e with
  | nil => simp
  | cons x xs ih =>
    have h := ih (if x.ts < e.ts then x else e)
    simp only [List.foldl_cons]
    rcases List.mem_cons.mp h with h1 | h1
    · rw [h1]
      split
      · exact List.mem_cons_of_mem _ (List.mem_cons_self _ _)
      · exact List.mem_cons_self _ _
    · exact List.mem_cons_of_mem _ (List.mem_cons_of_mem _ h1)

/-- The fold inside `minByTs` returns a timestamp-minimal element. -/
theorem minFold_le (e : LogEntry) (es : List LogEntry) :
    (es.foldl (fun b x => if x.ts < b.ts then x else b) e).ts ≤ e.ts ∧
      ∀ x ∈ es, (es.foldl (fun b x => if x.ts < b.ts then x else b) e).ts ≤ x.ts := by
  induction es generalizing e with
  | nil => simp
  | cons x xs ih =>
    obtain ⟨h1, h2⟩ := ih (if x.ts < e.ts then x else e)
    simp only [List.foldl_cons]
    have hle : (if x.ts < e.ts then x else e).ts ≤ e.ts := by split <;> omega
    have hlx : (if x.ts < e.ts then x else e).ts ≤ x.ts := by split <;> omega
    refine ⟨le_trans h1 hle, ?_⟩
    intro y hy
    rcases List.mem_cons.mp hy with h3 | h3
    · rw [h3]; exact le_trans h1 hlx
    · exact h2 y h3

/-- `minByTs` on a nonempty list returns a minimal member. -/
theorem minByTs_spec (l : List LogEntry) (e : LogEntry) (h : minByTs l = some e) :
    e ∈ l ∧ ∀ x ∈ l, e.ts ≤ x.ts := by
  cases l with
  | nil => simp [minByTs] at h
  | cons a as =>
    simp only [minByTs, Option.some.injEq] at h
    subst h
    refine ⟨minFold_mem a as, ?_⟩
    intro x hx
    rcases List.mem_cons.mp hx with h1 | h1
    · rw [h1]; exact (minFold_le a as).1
    · exact (minFold_le a as).2 x h1

/-- `minByTs` is `none` exactly on the empty list. -/
theorem minByTs_eq_none (l : List LogEntry) : minByTs l = none ↔ l = [] := by
  cases l <;> simp [minByTs]

/-- If the selector returns a path, it is the filename of a qualifying log
entry. -/
theorem getOldestVideo_some (entries : List LogEntry) (existing : List String) (now : Int)
    (f : String) (h : getOldestVideo entries existing now = some f) :
    ∃ e ∈ entries, entryQualifies existing now e = true ∧ e.filename = f ∧
      ∀ e2 ∈ entries, entryQualifies existing now e2 = true → e.ts ≤ e2.ts := by
  simp only [getOldestVideo, Option.map_eq_some'] at h
  obtain ⟨e, he, hf⟩ := h
  obtain ⟨hmem, hmin⟩ := minByTs_spec _ e he
  rw [List.mem_filter] at hmem
  refine ⟨e, hmem.1, hmem.2, hf, ?_⟩
  intro e2 he2 hq
  exact hmin e2 (List.mem_filter.mpr ⟨he2, hq⟩)

/-- C1: with an angular counting line, a track whose previous decisive zone is
side A and whose next decisive observation is side B fires NO entry/exit
event.  Configuration `cfgA` (line through (50, 0) at 90°, buffer 5,
`entry_inverted = false`): a single person is seen at (70, 0) (side A) and
then at (30, 0) (side B); the tracker associates the two observations and the
per-object status records the side_A → side_B decisive transition, yet both
counters stay at zero, because in the source the `if entry_detected:` block
(line 226) is indented under the legacy horizontal `else:` branch (line 220)
and is unreachable when `line_type == "angular"`.  The claim (and the spec)
say this transition increments one of the counters. -/
theorem c1_angular_crossing_never_counted :
    zoneOf cfgA 70 0 = Zone.sideA ∧
    zoneOf cfgA 30 0 = Zone.sideB ∧
    (runFrames cfgA (⟨[], 0, 20, 80⟩, ⟨0, 0, []⟩)
        [([⟨60, -10, 80, 10⟩], none), ([⟨20, -10, 40, 10⟩], none)]).2.status
      = [(0, ⟨Zone.sideB, some Zone.sideB⟩)] ∧
    (runFrames cfgA (⟨[], 0, 20, 80⟩, ⟨0, 0, []⟩)
        [([⟨60, -10, 80, 10⟩], none), ([⟨20, -10, 40, 10⟩], none)]).2.entryCount = 0 ∧
    (runFrames cfgA (⟨[], 0, 20, 80⟩, ⟨0, 0, []⟩)
        [([⟨60, -10, 80, 10⟩], none), ([⟨20, -10, 40, 10⟩], none)]).2.exitCount = 0 ∧
    (runFrames { cfgA with entryInverted := true } (⟨[], 0, 20, 80⟩, ⟨0, 0, []⟩)
        [([⟨60, -10, 80, 10⟩], none), ([⟨20, -10, 40, 10⟩], none)]).2.entryCount = 0 ∧
    (runFrames { cfgA with entryInverted := true } (⟨[], 0, 20, 80⟩, ⟨0, 0, []⟩)
        [([⟨60, -10, 80, 10⟩], none), ([⟨20, -10, 40, 10⟩], none)]).2.exitCount = 0 := by
  decide

/-- C2: the tracker's rotation correction is not the inverse of the forward
rotation applied to the cropped ROI image.  For `rotation = 90` on a
100 × 50 ROI, the forward `cv2.ROTATE_90_CLOCKWISE` mapping sends the
ROI-local pixel (0, 0) to (49, 0), but the correction in
`_get_object_zone_angular` maps (49, 0) to (0, 51) instead of back to
(0, 0): the 90°/270° branches use `roi_width` where the inverse rotation
needs `roi_height`.  (For the square 180° case the correction agrees with
the continuous inverse, and differs from the pixel-index inverse by one.) -/
theorem c2_rotation_correction_not_inverse :
    rotForward 90 100 50 (0, 0) = (49, 0) ∧
    trackerCorrect 90 100 50 (rotForward 90 100 50 (0, 0)) = (0, 51) ∧
    trackerCorrect 90 100 50 (rotForward 90 100 50 (0, 0)) ≠ (0, 0) ∧
    trackerCorrect 270 100 50 (rotForward 270 100 50 (0, 0)) = (-49, 0) := by
  decide

/-- C3 (counterexample): one existing track at (0, 0) and one detection with
centroid (1000, 1000), `max_distance = 80`: the pair is beyond the distance
bound, so both the track and the detection are unmatched.  The update lands
in the `D.shape[0] >= D.shape[1]` branch, which only ages the track; the
unmatched detection is NOT registered (`next_object_id` stays 1 and no new
track appears), contradicting the claim that both effects happen on the same
call whenever both kinds of unmatched element exist. -/
theorem c3_counterexample_no_registration_when_tracks_ge_detections :
    centroidOf ⟨999, 999, 1001, 1001⟩ = (1000, 1000) ∧
    distSq (0, 0) (1000, 1000) > (80 : Int) ^ 2 ∧
    sortUpdate ⟨[⟨0, 0, 0, 0⟩], 1, 20, 80⟩ [⟨999, 999, 1001, 1001⟩]
      = ⟨[⟨0, 0, 0, 1⟩], 1, 20, 80⟩ ∧
    ¬∃ t ∈ (sortUpdate ⟨[⟨0, 0, 0, 0⟩], 1, 20, 80⟩ [⟨999, 999, 1001, 1001⟩]).tracks,
        t.cx = 1000 := by
  decide

/-- C4 (counterexample): a readable segment `seg.mp4` whose heartbeat line is
in the log: `process_video` returns `True` and deletes the video file, but
the `seg.mp4|...` line is still in the heartbeat log — the claim that the
line has been removed by the time `process_video` returns is false for the
successful-processing branch. -/
theorem c4_counterexample_entry_kept_after_success :
    (processVideo .processedOk "seg.mp4" ⟨["seg.mp4|2026-01-01 00:00:00"], true⟩).2 = true ∧
    (processVideo .processedOk "seg.mp4" ⟨["seg.mp4|2026-01-01 00:00:00"], true⟩).1.videoPresent
      = false ∧
    "seg.mp4|2026-01-01 00:00:00" ∈
      (processVideo .processedOk "seg.mp4" ⟨["seg.mp4|2026-01-01 00:00:00"], true⟩).1.logLines := by
  refine ⟨rfl, rfl, ?_⟩
  simp [processVideo]

/-- C4 (amended): the heartbeat line of a segment is deleted by
`process_video` only in the malformed-video branch, where exactly the lines
prefixed `filename|` disappear from the log; after a successfully processed
segment the log is unchanged (the video file itself is deleted instead), and
after a mid-processing error both the log and the file are untouched. -/
theorem c4_amended_removal_only_in_malformed_branch (f : String) (fs : ConsumerFS)
    (l : String) :
    ((l ∈ (processVideo .unreadable f fs).1.logLines ↔
        l ∈ fs.logLines ∧ l.startsWith (f ++ "|") = false) ∧
      (processVideo .unreadable f fs).1.videoPresent = false ∧
      (processVideo .unreadable f fs).2 = true) ∧
    ((processVideo .processedOk f fs).1.logLines = fs.logLines ∧
      (processVideo .processedOk f fs).1.videoPresent = false ∧
      (processVideo .processedOk f fs).2 = true) ∧
    ((processVideo .errorDuring f fs).1 = fs ∧ (processVideo .errorDuring f fs).2 = false) := by
  refine ⟨⟨?_, rfl, rfl⟩, ⟨rfl, rfl, rfl⟩, rfl, rfl⟩
  simp [processVideo, removeFromWatchdogLog, List.mem_filter]

/-- C5 (counterexample): tracks at (0, 0) and (3, 0), detections at (1, 0)
and (10, 0), `max_distance = 80`.  The spec's all-pairs greedy commits
(track 0, det 0) and then (track 1, det 1) (distances 1 and 49 ≤ 80²), but
`SortTracker.update` pairs each track only with its single nearest detection:
track 1's nearest detection is det 0, already claimed, so track 1 is skipped
entirely and only (0, 0) is committed — inside the full update, track 1 just
ages while detection 1 is dropped. -/
theorem c5_counterexample_not_all_pairs_greedy :
    specGreedyAssign [(0, 0), (3, 0)] [(1, 0), (10, 0)] 80 = [(0, 0), (1, 1)] ∧
    commitPairs [(0, 0), (3, 0)] [(1, 0), (10, 0)] 80 = [(0, 0)] ∧
    commitPairs [(0, 0), (3, 0)] [(1, 0), (10, 0)] 80 ≠
      specGreedyAssign [(0, 0), (3, 0)] [(1, 0), (10, 0)] 80 ∧
    sortUpdate ⟨[⟨0, 0, 0, 0⟩, ⟨1, 3, 0, 0⟩], 2, 20, 80⟩ [⟨0, -5, 2, 5⟩, ⟨9, -5, 11, 5⟩]
      = ⟨[⟨0, 1, 0, 0⟩, ⟨1, 3, 0, 1⟩], 2, 20, 80⟩ := by
  decide

/-- C6: `get_oldest_video_for_processing` returns the filename of a
qualifying heartbeat entry (age ≥ 30 s and file still present) with the
oldest completion timestamp, and `none` exactly when no entry qualifies;
and the spec's end-to-end scenario holds: with segments logged at t = 0, 10,
20 s, a call at t = 35 returns the t = 0 segment, and after its entry is
removed a call at t = 40 returns the t = 10 segment. -/
theorem c6_selector_oldest_mature (entries : List LogEntry) (existing : List String)
    (now : Int) :
    (getOldestVideo entries existing now = none ↔
      ∀ e ∈ entries, entryQualifies existing now e = false) ∧
    (∀ f, getOldestVideo entries existing now = some f →
      ∃ e ∈ entries, entryQualifies existing now e = true ∧ e.filename = f ∧
        ∀ e2 ∈ entries, entryQualifies existing now e2 = true → e.ts ≤ e2.ts) ∧
    getOldestVideo [⟨"seg0.mp4", 0⟩, ⟨"seg1.mp4", 10⟩, ⟨"seg2.mp4", 20⟩]
        ["seg0.mp4", "seg1.mp4", "seg2.mp4"] 35 = some "seg0.mp4" ∧
    getOldestVideo [⟨"seg1.mp4", 10⟩, ⟨"seg2.mp4", 20⟩] ["seg1.mp4", "seg2.mp4"] 40
      = some "seg1.mp4" := by
  refine ⟨?_, fun f h => getOldestVideo_some entries existing now f h, by decide, by decide⟩
  constructor
  · intro h e he
    simp only [getOldestVideo, Option.map_eq_none', minByTs_eq_none] at h
    by_contra hq
    have : e ∈ entries.filter (entryQualifies existing now) :=
      List.mem_filter.mpr ⟨he, by revert hq; cases entryQualifies existing now e <;> simp⟩
    rw [h] at this
    exact absurd this (List.not_mem_nil e)
  · intro h
    simp only [getOldestVideo, Option.map_eq_none', minByTs_eq_none]
    rw [List.filter_eq_nil_iff]
    intro e he
    rw [h e he]
    simp

/-- C6 witness: the selector theorem applied to the t = 35 scenario. -/
theorem c6_selector_oldest_mature_witness :
    ∃ e ∈ [(⟨"seg0.mp4", 0⟩ : LogEntry), ⟨"seg1.mp4", 10⟩, ⟨"seg2.mp4", 20⟩],
      entryQualifies ["seg0.mp4", "seg1.mp4", "seg2.mp4"] 35 e = true ∧
      e.filename = "seg0.mp4" ∧
      ∀ e2 ∈ [(⟨"seg0.mp4", 0⟩ : LogEntry), ⟨"seg1.mp4", 10⟩, ⟨"seg2.mp4", 20⟩],
        entryQualifies ["seg0.mp4", "seg1.mp4", "seg2.mp4"] 35 e2 = true → e.ts ≤ e2.ts :=
  (c6_selector_oldest_mature [⟨"seg0.mp4", 0⟩, ⟨"seg1.mp4", 10⟩, ⟨"seg2.mp4", 20⟩]
    ["seg0.mp4", "seg1.mp4", "seg2.mp4"] 35).2.1 "seg0.mp4" (by decide)

/-- One `restart_ffmpeg` call preserves the restart-trace invariant: the
recorded `last_restart_time` is the last committed restart time, and
committed restart times are pairwise at least 10 s apart. -/
theorem restartFfmpeg_step_invariant (now : Int) (ok : Bool) (last : Option Int)
    (cs : List Int) (hc : List.Chain' (fun a b => 10 ≤ b - a) cs)
    (hl : last = cs.getLast?) :
    List.Chain' (fun a b => 10 ≤ b - a)
      (cs ++ if (restartFfmpeg now ok last).2 = RestartOutcome.restarted then [now] else []) ∧
    (restartFfmpeg now ok last).1 =
      (cs ++ if (restartFfmpeg now ok last).2 = RestartOutcome.restarted then [now]
        else []).getLast? := by
  cases last with
  | none =>
    have hcs : cs = [] := List.getLast?_eq_none_iff.mp hl.symm
    subst hcs
    cases ok <;> simp [restartFfmpeg, List.chain'_singleton]
  | some t =>
    by_cases h10 : now - t < 10
    · have hr : restartFfmpeg now ok (some t) = (some t, RestartOutcome.skipped) := by
        simp [restartFfmpeg, h10]
      rw [hr]
      simpa using ⟨hc, hl⟩
    · cases ok with
      | false =>
        have hr : restartFfmpeg now false (some t) = (some t, RestartOutcome.restartFailed) := by
          simp [restartFfmpeg, h10]
        rw [hr]
        simpa using ⟨hc, hl⟩
      | true =>
        have hr : restartFfmpeg now true (some t) = (some now, RestartOutcome.restarted) := by
          simp [restartFfmpeg, h10]
        rw [hr]
        have hif : (if (RestartOutcome.restarted = RestartOutcome.restarted) then [now]
            else ([] : List Int)) = [now] := by simp
        rw [hif]
        refine ⟨?_, by simp [List.getLast?_concat]⟩
        rw [List.chain'_append]
        refine ⟨hc, List.chain'_singleton _, ?_⟩
        intro x hx y hy
        rw [← hl] at hx
        simp only [Option.mem_def, Option.some.injEq] at hx
        simp only [List.head?_cons, Option.mem_def, Option.some.injEq] at hy
        subst hx; subst hy
        omega

/-- The restart-trace invariant folded over a whole sequence of attempts. -/
theorem runRestarts_chain (attempts : List (Int × Bool)) :
    ∀ (last : Option Int) (cs : List Int),
      List.Chain' (fun a b => 10 ≤ b - a) cs → last = cs.getLast? →
      List.Chain' (fun a b => 10 ≤ b - a)
        (attempts.foldl
          (fun acc a =>
            let r := restartFfmpeg a.1 a.2 acc.1
            (r.1, acc.2 ++ if r.2 = RestartOutcome.restarted then [a.1] else []))
          (last, cs)).2 ∧
      (attempts.foldl
          (fun acc a =>
            let r := restartFfmpeg a.1 a.2 acc.1
            (r.1, acc.2 ++ if r.2 = RestartOutcome.restarted then [a.1] else []))
          (last, cs)).1 =
        (attempts.foldl
          (fun acc a =>
            let r := restartFfmpeg a.1 a.2 acc.1
            (r.1, acc.2 ++ if r.2 = RestartOutcome.restarted then [a.1] else []))
          (last, cs)).2.getLast? := by
  induction attempts with
  | nil => intro last cs hc hl; exact ⟨hc, hl⟩
  | cons a rest ih =>
    intro last cs hc hl
    simp only [List.foldl_cons]
    obtain ⟨h1, h2⟩ := restartFfmpeg_step_invariant a.1 a.2 last cs hc hl
    exact ih _ _ h1 h2

/-- C7: the watchdog restart policy.  (i) With no heartbeat and a runtime
past the 20 s grace threshold, or with a newest heartbeat older than the
30 s staleness threshold, `is_ffmpeg_healthy` reports unhealthy.  (ii) On an
unhealthy check the watchdog loop logs `UNHEALTHY` and performs a restart
attempt.  (iii) An attempt within 10 s of the last successful restart leaves
the state untouched and logs `SKIP` instead of restarting.  (iv) Over any
sequence of restart attempts, consecutive successful restarts are recorded
at times at least 10 s apart. -/
theorem c7_watchdog_restart_policy :
    (∀ (now ps : Int) (lr : Option Int), 20 < now - ps →
      isFfmpegHealthy now ⟨some ps, none, lr⟩ = false) ∧
    (∀ (now ps ts : Int) (lr : Option Int), 30 < now - ts →
      isFfmpegHealthy now ⟨some ps, some ts, lr⟩ = false) ∧
    (∀ (now : Int) (ok : Bool) (st : WatchState), isFfmpegHealthy now st = false →
      (watchdogStep now ok st).2 =
        WatchEvent.UNHEALTHY :: eventsOf (restartFfmpeg now ok st.lastRestartTime).2) ∧
    (∀ (now : Int) (ok : Bool) (st : WatchState) (t : Int),
      isFfmpegHealthy now st = false → st.lastRestartTime = some t → now - t < 10 →
      (watchdogStep now ok st).1 = st ∧
        (watchdogStep now ok st).2 = [WatchEvent.UNHEALTHY, WatchEvent.SKIP]) ∧
    (∀ attempts : List (Int × Bool),
      List.Chain' (fun a b => 10 ≤ b - a) (runRestarts attempts none).2) := by
  refine ⟨?_, ?_, ?_, ?_, ?_⟩
  · intro now ps lr h
    simp only [isFfmpegHealthy, decide_eq_false_iff_not]
    omega
  · intro now ps ts lr h
    simp only [isFfmpegHealthy, decide_eq_false_iff_not]
    omega
  · intro now ok st h
    simp [watchdogStep, h]
  · intro now ok st t h hlr h10
    have hr : restartFfmpeg now ok st.lastRestartTime = (some t, RestartOutcome.skipped) := by
      rw [hlr]; cases ok <;> simp [restartFfmpeg, h10]
    have hw : watchdogStep now ok st =
        ({ st with lastRestartTime := some t, processStart := st.processStart },
          [WatchEvent.UNHEALTHY, WatchEvent.SKIP]) := by
      simp [watchdogStep, h, hr, eventsOf]
    rw [hw, ← hlr]
    exact ⟨rfl, rfl⟩
  · intro attempts
    exact (runRestarts_chain attempts none [] List.chain'_nil rfl).1

/-- C7 witness: the policy applied at concrete instants — unhealthy at
t = 35 with process start t = 0 and no heartbeat; a skip 5 s after a
successful restart; and the spacing invariant on a concrete burst of
attempts. -/
theorem c7_watchdog_restart_policy_witness :
    isFfmpegHealthy 35 ⟨some 0, none, some 30⟩ = false ∧
    (watchdogStep 35 true ⟨some 0, none, some 30⟩).1 = ⟨some 0, none, some 30⟩ ∧
    (watchdogStep 35 true ⟨some 0, none, some 30⟩).2 =
      [WatchEvent.UNHEALTHY, WatchEvent.SKIP] ∧
    List.Chain' (fun a b => 10 ≤ b - a) (runRestarts [(0, true), (5, true), (12, true)] none).2 :=
  ⟨c7_watchdog_restart_policy.1 35 0 (some 30) (by decide),
    (c7_watchdog_restart_policy.2.2.2.1 35 true ⟨some 0, none, some 30⟩ 30
      (c7_watchdog_restart_policy.1 35 0 (some 30) (by decide)) rfl (by decide)).1,
    (c7_watchdog_restart_policy.2.2.2.1 35 true ⟨some 0, none, some 30⟩ 30
      (c7_watchdog_restart_policy.1 35 0 (some 30) (by decide)) rfl (by decide)).2,
    c7_watchdog_restart_policy.2.2.2.2 [(0, true), (5, true), (12, true)]⟩

/-- Every heartbeat entry produced by folding the monitor loop comes either
from the initial log or from an observation that passed the stability
check. -/
theorem monitorFold_log_mem (obs : List SizeObs) :
    ∀ (st : MonitorState) (e : LogEntry), e ∈ (obs.foldl monitorStep st).log →
      e ∈ st.log ∨ ∃ o ∈ obs, o.file = e.filename ∧ obsStable o = true := by
  induction obs with
  | nil => intro st e he; exact Or.inl he
  | cons o rest ih =>
    intro st e he
    simp only [List.foldl_cons] at he
    rcases ih (monitorStep st o) e he with h | ⟨o2, ho2, hs⟩
    · unfold monitorStep at h
      split at h
      · exact Or.inl h
      · split at h
        · rcases List.mem_append.mp h with h1 | h1
          · exact Or.inl h1
          · simp only [List.mem_singleton] at h1
            subst h1
            exact Or.inr ⟨o, List.mem_cons_self _ _, rfl, by assumption⟩
        · exact Or.inl h
    · exact Or.inr ⟨o2, List.mem_cons_of_mem _ ho2, hs⟩

/-- C10: the folder monitor appends a heartbeat entry only after two equal
size reads strictly above 50000 bytes; consequently every entry in the
heartbeat log corresponds to such an observation, and a segment whose
observations never pass that check is absent from the log and is never
returned by the log-based selector. -/
theorem c10_monitor_stability_invariant (obs : List SizeObs) :
    (∀ e ∈ (runMonitor obs).log,
      ∃ o ∈ obs, o.file = e.filename ∧ o.readOk = true ∧ o.size1 = o.size2 ∧
        50000 < o.size1) ∧
    ∀ f : String, (∀ o ∈ obs, o.file = f → obsStable o = false) →
      (∀ e ∈ (runMonitor obs).log, e.filename ≠ f) ∧
      ∀ (existing : List String) (now : Int),
        getOldestVideo (runMonitor obs).log existing now ≠ some f := by
  have hmem : ∀ e ∈ (runMonitor obs).log,
      ∃ o ∈ obs, o.file = e.filename ∧ obsStable o = true := by
    intro e he
    rcases monitorFold_log_mem obs ⟨[], []⟩ e he with h | h
    · exact absurd h (List.not_mem_nil e)
    · exact h
  constructor
  · intro e he
    obtain ⟨o, ho, hf, hs⟩ := hmem e he
    refine ⟨o, ho, hf, ?_⟩
    have hs2 : (o.readOk = true ∧ o.size1 = o.size2) ∧ 50000 < o.size1 := by
      simpa [obsStable, Bool.and_eq_true, decide_eq_true_iff] using hs
    exact ⟨hs2.1.1, hs2.1.2, hs2.2⟩
  · intro f hnever
    have hnot : ∀ e ∈ (runMonitor obs).log, e.filename ≠ f := by
      intro e he hef
      obtain ⟨o, ho, hf, hs⟩ := hmem e he
      have := hnever o ho (hf.trans hef)
      rw [this] at hs
      exact Bool.false_ne_true hs
    refine ⟨hnot, ?_⟩
    intro existing now hsome
    obtain ⟨e, he, _, hef, _⟩ := getOldestVideo_some _ existing now f hsome
    exact hnot e he hef

/-- C10 witness: a segment observed twice, once unstable and once at 40000
bytes, is never logged nor selected; a 60000-byte stable segment is logged. -/
theorem c10_monitor_stability_invariant_witness :
    (∀ e ∈ (runMonitor [⟨"small.mp4", 5, 30000, 40000, true⟩,
        ⟨"small.mp4", 8, 40000, 40000, true⟩, ⟨"big.mp4", 9, 60000, 60000, true⟩]).log,
      e.filename ≠ "small.mp4") ∧
    ∀ (existing : List String) (now : Int),
      getOldestVideo (runMonitor [⟨"small.mp4", 5, 30000, 40000, true⟩,
          ⟨"small.mp4", 8, 40000, 40000, true⟩,
          ⟨"big.mp4", 9, 60000, 60000, true⟩]).log existing now ≠ some "small.mp4" :=
  (c10_monitor_stability_invariant
      [⟨"small.mp4", 5, 30000, 40000, true⟩, ⟨"small.mp4", 8, 40000, 40000, true⟩,
        ⟨"big.mp4", 9, 60000, 60000, true⟩]).2
    "small.mp4" (by decide)

/-- C9: the staff filter is fail-open.  `is_store_staff` reports
`(False, 0.0)` when the filter is disabled, the model file is absent or
failed to load, the person-ROI extraction fails, or inference raises; and in
the counting block of `update_tracking_and_count` (reached on the horizontal
path) a detected crossing is counted whenever the filter reports not-staff,
and counted directly when no frame is supplied. -/
theorem c9_staff_filter_fail_open :
    (∀ th : ℚ,
      isStoreStaff th .disabled = (false, 0) ∧ isStoreStaff th .noSession = (false, 0) ∧
        isStoreStaff th .roiFail = (false, 0) ∧ isStoreStaff th .inferError = (false, 0)) ∧
    (∀ (cfg : PTConfig) (st : PTState) (oid : Nat) (cx cy : Int) (obj : ObjStatus)
        (frame : Option FilterOutcome),
      cfg.isAngular = false →
      statusFind st.status oid = some obj →
      (∀ fo, frame = some fo → (isStoreStaff cfg.filterThreshold fo).1 = false) →
      (obj.lastCountingZone = some Zone.above → zoneOf cfg cx cy = Zone.below →
        (objProcess cfg frame st oid cx cy).entryCount = st.entryCount + 1 ∧
          (objProcess cfg frame st oid cx cy).exitCount = st.exitCount) ∧
      (obj.lastCountingZone = some Zone.below → zoneOf cfg cx cy = Zone.above →
        (objProcess cfg frame st oid cx cy).exitCount = st.exitCount + 1 ∧
          (objProcess cfg frame st oid cx cy).entryCount = st.entryCount)) := by
  constructor
  · intro th
    exact ⟨rfl, rfl, rfl, rfl⟩
  · intro cfg st oid cx cy obj frame hA hfind hframe
    constructor
    · intro hlast hz
      cases frame with
      | none => simp [objProcess, hfind, hz, hA, hlast]
      | some fo =>
        have hf := hframe fo rfl
        simp [objProcess, hfind, hz, hA, hlast, hf]
    · intro hlast hz
      cases frame with
      | none => simp [objProcess, hfind, hz, hA, hlast]
      | some fo =>
        have hf := hframe fo rfl
        simp [objProcess, hfind, hz, hA, hlast, hf]

/-- C9 witness: under the horizontal configuration `cfgH`, an above → below
crossing of object 0 is counted both with no frame available and with a
frame whose inference raised. -/
theorem c9_staff_filter_fail_open_witness :
    isStoreStaff (mkRat 7 10) FilterOutcome.inferError = (false, 0) ∧
    (objProcess cfgH none ⟨3, 4, [(0, ⟨Zone.above, some Zone.above⟩)]⟩ 0 70 70).entryCount
      = 4 ∧
    (objProcess cfgH (some FilterOutcome.inferError)
        ⟨3, 4, [(0, ⟨Zone.above, some Zone.above⟩)]⟩ 0 70 70).entryCount = 4 :=
  ⟨(c9_staff_filter_fail_open.1 (mkRat 7 10)).2.2.2,
    by
      have h := (c9_staff_filter_fail_open.2 cfgH ⟨3, 4, [(0, ⟨Zone.above, some Zone.above⟩)]⟩
        0 70 70 ⟨Zone.above, some Zone.above⟩ none rfl (by decide)
        (fun fo hfo => by cases hfo)).1 rfl (by decide)
      exact h.1,
    by
      have h := (c9_staff_filter_fail_open.2 cfgH ⟨3, 4, [(0, ⟨Zone.above, some Zone.above⟩)]⟩
        0 70 70 ⟨Zone.above, some Zone.above⟩ (some FilterOutcome.inferError) rfl (by decide)
        (fun fo hfo => by cases hfo; rfl)).1 rfl (by decide)
      exact h.1⟩

/-- The auxiliary argmin loop returns an in-range index. -/
theorem argminAux_lt (xs : List Int) :
    ∀ (i best : Nat) (bv : Int), best < i → argminAux xs i best bv < i + xs.length := by
  induction xs with
  | nil =>
    intro i best bv h
    simpa [argminAux] using h
  | cons x l ih =>
    intro i best bv h
    simp only [argminAux]
    split
    · have h2 := ih (i + 1) i x (Nat.lt_succ_self i)
      simp only [List.length_cons]
      omega
    · have h2 := ih (i + 1) best bv (h.trans (Nat.lt_succ_self i))
      simp only [List.length_cons]
      omega

/-- `argmin` of a nonempty list is an in-range index. -/
theorem argminL_lt (l : List Int) (h : l ≠ []) : argminL l < l.length := by
  cases l with
  | nil => exact absurd rfl h
  | cons x xs =>
    have h2 := argminAux_lt xs 1 0 x Nat.one_pos
    simp only [argminL, List.length_cons]
    omega

/-- `getD` at an in-range index is a member. -/
theorem getD_mem_of_lt {α : Type} (l : List α) (n : Nat) (d : α) (h : n < l.length) :
    l.getD n d ∈ l := by
  induction l generalizing n with
  | nil => simp at h
  | cons x xs ih =>
    cases n with
    | zero => simp [List.getD]
    | succ m =>
      rw [List.getD_cons_succ]
      exact List.mem_cons_of_mem _ (ih m (by simpa using h))

/-- Everything the association loop commits comes from its candidate list or
its accumulator. -/
theorem commitLoop_mem (tcs dcs : List (Int × Int)) (maxDist : Nat) :
    ∀ (ps acc : List (Nat × Nat)) (p : Nat × Nat),
      p ∈ commitLoop tcs dcs maxDist ps acc → p ∈ ps ∨ p ∈ acc := by
  intro ps
  induction ps with
  | nil =>
    intro acc p hp
    exact Or.inr (List.mem_reverse.mp hp)
  | cons q rest ih =>
    intro acc p hp
    obtain ⟨r, c⟩ := q
    simp only [commitLoop] at hp
    split at hp
    · rcases ih acc p hp with h | h
      · exact Or.inl (List.mem_cons_of_mem _ h)
      · exact Or.inr h
    · split at hp
      · rcases ih acc p hp with h | h
        · exact Or.inl (List.mem_cons_of_mem _ h)
        · exact Or.inr h
      · rcases ih ((r, c) :: acc) p hp with h | h
        · exact Or.inl (List.mem_cons_of_mem _ h)
        · rcases List.mem_cons.mp h with h1 | h1
          · exact Or.inl (h1 ▸ List.mem_cons_self _ _)
          · exact Or.inr h1

/-- Every committed pair's column is the argmin of its row. -/
theorem commitPairs_col (tcs dcs : List (Int × Int)) (maxDist : Nat) (p : Nat × Nat)
    (hp : p ∈ commitPairs tcs dcs maxDist) :
    p.2 = argminL (rowDists (tcs.getD p.1 (0, 0)) dcs) := by
  rcases commitLoop_mem tcs dcs maxDist _ [] p hp with h | h
  · obtain ⟨r, _, he⟩ := List.mem_map.mp h
    rw [← he]
  · simp at h

/-- Committed columns index into the detection list. -/
theorem commitPairs_col_lt (tcs dcs : List (Int × Int)) (maxDist : Nat)
    (hd : dcs ≠ []) (p : Nat × Nat) (hp : p ∈ commitPairs tcs dcs maxDist) :
    p.2 < dcs.length := by
  rw [commitPairs_col tcs dcs maxDist p hp]
  have hne : rowDists (tcs.getD p.1 (0, 0)) dcs ≠ [] := by
    simp [rowDists, hd]
  have := argminL_lt _ hne
  simpa [rowDists] using this

/-- `pairFind` only returns listed pairs. -/
theorem pairFind_some (l : List (Nat × Nat)) (i c : Nat) (h : pairFind l i = some c) :
    (i, c) ∈ l := by
  induction l with
  | nil => simp [pairFind] at h
  | cons q rest ih =>
    simp only [pairFind] at h
    split at h
    · next hqi =>
      obtain rfl : q.2 = c := by injection h
      exact (show q = (i, q.2) by rw [← hqi]) ▸ List.mem_cons_self _ _
    · exact List.mem_cons_of_mem _ (ih h)

/-- `pairFind` misses ids absent from the list. -/
theorem pairFind_none (l : List (Nat × Nat)) (i : Nat) (h : ∀ q ∈ l, q.1 ≠ i) :
    pairFind l i = none := by
  induction l with
  | nil => rfl
  | cons q rest ih =>
    simp only [pairFind]
    rw [if_neg (h q (List.mem_cons_self _ _))]
    exact ih fun q2 hq2 => h q2 (List.mem_cons_of_mem _ hq2)

/-- Tracks registered by `registerAll` are the old ones plus tracks at the
given centroids. -/
theorem registerAll_mem (cs : List (Int × Int)) :
    ∀ (s : SortState) (t : Track), t ∈ (registerAll s cs).tracks →
      t ∈ s.tracks ∨ (t.cx, t.cy) ∈ cs := by
  induction cs with
  | nil => intro s t h; exact Or.inl h
  | cons c rest ih =>
    intro s t h
    simp only [registerAll, List.foldl_cons] at h
    rcases ih _ t h with h1 | h1
    · rcases List.mem_append.mp h1 with h2 | h2
      · exact Or.inl h2
      · simp only [List.mem_singleton] at h2
        subst h2
        exact Or.inr (List.mem_cons_self _ _)
    · exact Or.inr (List.mem_cons_of_mem _ h1)

/-- Each track after `applyCommits` keeps its old centroid or takes one
indexed by a committed column. -/
theorem applyCommits_mem (tracks : List Track) (dcs : List (Int × Int))
    (idPairs : List (Nat × Nat)) (t : Track) (h : t ∈ applyCommits tracks dcs idPairs) :
    (∃ u ∈ tracks, t.cx = u.cx ∧ t.cy = u.cy) ∨
      ∃ q ∈ idPairs, t.cx = (dcs.getD q.2 (0, 0)).1 ∧ t.cy = (dcs.getD q.2 (0, 0)).2 := by
  obtain ⟨u, hu, he⟩ := List.mem_map.mp h
  rcases hpf : pairFind idPairs u.id with _ | c
  · left
    refine ⟨u, hu, ?_, ?_⟩ <;> rw [← he] <;> simp [hpf]
  · right
    refine ⟨(u.id, c), pairFind_some idPairs u.id c hpf, ?_, ?_⟩ <;> rw [← he] <;> simp [hpf]

/-- Centroid closure of `SortTracker.update`: every track of the updated
state carries either an old track's centroid or a detection centroid. -/
theorem sortUpdate_centroid (s : SortState) (rects : List Rect) (t : Track)
    (ht : t ∈ (sortUpdate s rects).tracks) :
    (∃ u ∈ s.tracks, t.cx = u.cx ∧ t.cy = u.cy) ∨ (t.cx, t.cy) ∈ rects.map centroidOf := by
  simp only [sortUpdate] at ht
  by_cases hre : rects.isEmpty = true
  · rw [if_pos hre] at ht
    have h1 := (List.mem_filter.mp ht).1
    obtain ⟨u, hu, he⟩ := List.mem_map.mp h1
    left
    exact ⟨u, hu, by rw [← he], by rw [← he]⟩
  · rw [if_neg hre] at ht
    have hdne : rects.map centroidOf ≠ [] := by
      simp only [ne_eq, List.map_eq_nil_iff]
      intro hc
      rw [hc] at hre
      exact hre rfl
    by_cases hte : s.tracks.isEmpty = true
    · rw [if_pos hte] at ht
      rcases registerAll_mem _ s t ht with h | h
      · exact Or.inl ⟨t, h, rfl, rfl⟩
      · exact Or.inr h
    · rw [if_neg hte] at ht
      have hcom : ∀ t2 ∈ applyCommits s.tracks (rects.map centroidOf)
            (matchedIdPairs s.tracks
              (commitPairs (s.tracks.map fun u => (u.cx, u.cy)) (rects.map centroidOf)
                s.maxDistance)),
          (∃ u ∈ s.tracks, t2.cx = u.cx ∧ t2.cy = u.cy) ∨
            (t2.cx, t2.cy) ∈ rects.map centroidOf := by
        intro t2 ht2
        rcases applyCommits_mem _ _ _ t2 ht2 with h | ⟨q, hq, hx, hy⟩
        · exact Or.inl h
        · right
          obtain ⟨p, hp, he⟩ := List.mem_map.mp hq
          have hlt : p.2 < (rects.map centroidOf).length :=
            commitPairs_col_lt _ _ _ hdne p hp
          have hq2 : q.2 = p.2 := by rw [← he]
          rw [hx, hy, hq2]
          exact getD_mem_of_lt _ _ _ hlt
      split at ht
      · -- tracks ≥ detections: ageUnmatched over applyCommits
        have h1 := (List.mem_filter.mp ht).1
        obtain ⟨v, hv, he⟩ := List.mem_map.mp h1
        have hvc : t.cx = v.cx ∧ t.cy = v.cy := by
          constructor <;> rw [← he] <;> split <;> rfl
        rcases hcom v hv with ⟨u, hu, hx, hy⟩ | hm
        · exact Or.inl ⟨u, hu, hvc.1.trans hx, hvc.2.trans hy⟩
        · right
          rw [hvc.1, hvc.2]
          exact hm
      · -- detections > tracks: registerAll over applyCommits
        rcases registerAll_mem _ _ t ht with h | h
        · exact hcom t h
        · right
          obtain ⟨c, hc, he⟩ := List.mem_map.mp h
          have hclt : c < (rects.map centroidOf).length := by
            have := (List.mem_filter.mp hc).1
            simpa using List.mem_range.mp this
          rw [← he]
          exact getD_mem_of_lt _ _ _ hclt

/-- A buffer observation never changes the counters. -/
theorem objProcess_buffer (cfg : PTConfig) (frame : Option FilterOutcome) (st : PTState)
    (oid : Nat) (cx cy : Int) (h : zoneOf cfg cx cy = Zone.buffer) :
    (objProcess cfg frame st oid cx cy).entryCount = st.entryCount ∧
      (objProcess cfg frame st oid cx cy).exitCount = st.exitCount := by
  cases hf : statusFind st.status oid with
  | none => simp [objProcess, h, hf]
  | some obj => simp [objProcess, h, hf]

/-- Folding buffer observations over a track list never changes the
counters. -/
theorem foldlObj_buffer (cfg : PTConfig) (frame : Option FilterOutcome) (l : List Track) :
    ∀ st : PTState, (∀ t ∈ l, zoneOf cfg t.cx t.cy = Zone.buffer) →
      (l.foldl (fun a t => objProcess cfg frame a t.id t.cx t.cy) st).entryCount
          = st.entryCount ∧
        (l.foldl (fun a t => objProcess cfg frame a t.id t.cx t.cy) st).exitCount
          = st.exitCount := by
  induction l with
  | nil => intro st _; exact ⟨rfl, rfl⟩
  | cons t rest ih =>
    intro st h
    simp only [List.foldl_cons]
    obtain ⟨h1, h2⟩ := ih (objProcess cfg frame st t.id t.cx t.cy)
      (fun u hu => h u (List.mem_cons_of_mem _ hu))
    obtain ⟨e1, e2⟩ :=
      objProcess_buffer cfg frame st t.id t.cx t.cy (h t (List.mem_cons_self _ _))
    exact ⟨h1.trans e1, h2.trans e2⟩

/-- `update_tracking_and_count` with all-buffer inputs: counters unchanged
and the all-buffer track invariant is preserved. -/
theorem ptUpdate_buffer (cfg : PTConfig) (sd : SortState × PTState) (dets : List Rect)
    (frame : Option FilterOutcome)
    (h1 : ∀ t ∈ sd.1.tracks, zoneOf cfg t.cx t.cy = Zone.buffer)
    (h2 : ∀ r ∈ dets, zoneOf cfg (centroidOf r).1 (centroidOf r).2 = Zone.buffer) :
    ((ptUpdate cfg sd dets frame).2.entryCount = sd.2.entryCount ∧
      (ptUpdate cfg sd dets frame).2.exitCount = sd.2.exitCount) ∧
      ∀ t ∈ (ptUpdate cfg sd dets frame).1.tracks, zoneOf cfg t.cx t.cy = Zone.buffer := by
  have hz : ∀ t ∈ (sortUpdate sd.1 dets).tracks, zoneOf cfg t.cx t.cy = Zone.buffer := by
    intro t ht
    rcases sortUpdate_centroid sd.1 dets t ht with ⟨u, hu, hcx, hcy⟩ | hm
    · rw [hcx, hcy]; exact h1 u hu
    · obtain ⟨r, hr, he⟩ := List.mem_map.mp hm
      have hb := h2 r hr
      rw [he] at hb
      exact hb
  have hc := foldlObj_buffer cfg frame (sortUpdate sd.1 dets).tracks sd.2 hz
  exact ⟨⟨hc.1, hc.2⟩, fun t ht => hz t ht⟩

/-- C8: a run whose tracked observations all classify as `buffer` (the
existing tracks start inside the buffer band and every detection centroid of
every frame lies inside it) never changes the entry or exit counters, no
matter how many frames it oscillates for. -/
theorem c8_buffer_oscillation_never_counts (cfg : PTConfig) (ss : SortState) (ts : PTState)
    (frames : List (List Rect × Option FilterOutcome))
    (h1 : ∀ t ∈ ss.tracks, zoneOf cfg t.cx t.cy = Zone.buffer)
    (h2 : ∀ fr ∈ frames, ∀ r ∈ fr.1,
      zoneOf cfg (centroidOf r).1 (centroidOf r).2 = Zone.buffer) :
    (runFrames cfg (ss, ts) frames).2.entryCount = ts.entryCount ∧
      (runFrames cfg (ss, ts) frames).2.exitCount = ts.exitCount := by
  induction frames generalizing ss ts with
  | nil => exact ⟨rfl, rfl⟩
  | cons fr rest ih =>
    obtain ⟨⟨e1, e2⟩, hinv⟩ :=
      ptUpdate_buffer cfg (ss, ts) fr.1 fr.2 h1 (h2 fr (List.mem_cons_self _ _))
    obtain ⟨g1, g2⟩ := ih (ptUpdate cfg (ss, ts) fr.1 fr.2).1
      (ptUpdate cfg (ss, ts) fr.1 fr.2).2 hinv
      (fun g hg => h2 g (List.mem_cons_of_mem _ hg))
    simp only [runFrames, List.foldl_cons]
    exact ⟨g1.trans e1, g2.trans e2⟩

/-- C8 witness: under the angular configuration `cfgA` (buffer ±5 around
x = 50), three frames oscillating between x = 52 and x = 48 leave both
counters at zero. -/
theorem c8_buffer_oscillation_never_counts_witness :
    (∀ fr ∈ [([(⟨42, -10, 62, 10⟩ : Rect)], (none : Option FilterOutcome)),
        ([⟨38, -10, 58, 10⟩], none), ([⟨42, -10, 62, 10⟩], none)], ∀ r ∈ fr.1,
      zoneOf cfgA (centroidOf r).1 (centroidOf r).2 = Zone.buffer) ∧
    (runFrames cfgA (⟨[], 0, 20, 80⟩, ⟨0, 0, []⟩)
        [([⟨42, -10, 62, 10⟩], none), ([⟨38, -10, 58, 10⟩], none),
          ([⟨42, -10, 62, 10⟩], none)]).2.entryCount = 0 ∧
    (runFrames cfgA (⟨[], 0, 20, 80⟩, ⟨0, 0, []⟩)
        [([⟨42, -10, 62, 10⟩], none), ([⟨38, -10, 58, 10⟩], none),
          ([⟨42, -10, 62, 10⟩], none)]).2.exitCount = 0 :=
  ⟨by decide,
    (c8_buffer_oscillation_never_counts cfgA ⟨[], 0, 20, 80⟩ ⟨0, 0, []⟩
      [([⟨42, -10, 62, 10⟩], none), ([⟨38, -10, 58, 10⟩], none), ([⟨42, -10, 62, 10⟩], none)]
      (by simp) (by decide)).1,
    (c8_buffer_oscillation_never_counts cfgA ⟨[], 0, 20, 80⟩ ⟨0, 0, []⟩
      [([⟨42, -10, 62, 10⟩], none), ([⟨38, -10, 58, 10⟩], none), ([⟨42, -10, 62, 10⟩], none)]
      (by simp) (by decide)).2⟩

/-- `registerAll` allocates one fresh id per centroid. -/
theorem registerAll_nextId (cs : List (Int × Int)) :
    ∀ s : SortState, (registerAll s cs).nextId = s.nextId + cs.length := by
  induction cs with
  | nil => intro s; rfl
  | cons c rest ih =>
    intro s
    simp only [registerAll, List.foldl_cons] at ih ⊢
    rw [ih]
    simp only [List.length_cons]
    omega

/-- `registerAll` keeps every existing track. -/
theorem registerAll_sub (cs : List (Int × Int)) :
    ∀ (s : SortState) (t : Track), t ∈ s.tracks → t ∈ (registerAll s cs).tracks := by
  induction cs with
  | nil => intro s t h; exact h
  | cons c rest ih =>
    intro s t h
    simp only [registerAll, List.foldl_cons] at ih ⊢
    exact ih _ t (List.mem_append_left _ h)

/-- An unmatched track passes through `applyCommits` unchanged. -/
theorem applyCommits_self_mem (tracks : List Track) (dcs : List (Int × Int))
    (idPairs : List (Nat × Nat)) (t : Track) (ht : t ∈ tracks)
    (hfn : pairFind idPairs t.id = none) : t ∈ applyCommits tracks dcs idPairs := by
  have himg := List.mem_map_of_mem
    (fun u : Track =>
      match pairFind idPairs u.id with
      | some c =>
        { u with cx := (dcs.getD c (0, 0)).1, cy := (dcs.getD c (0, 0)).2, missed := 0 }
      | none => u) ht
  simpa [applyCommits, hfn] using himg

/-- Every track survives `applyCommits`, with its counter reset on a match
and untouched otherwise. -/
theorem applyCommits_exists (tracks : List Track) (dcs : List (Int × Int))
    (idPairs : List (Nat × Nat)) (t : Track) (ht : t ∈ tracks) :
    ∃ t2 ∈ applyCommits tracks dcs idPairs, t2.id = t.id ∧
      (t2.missed = 0 ∨ t2.missed = t.missed) := by
  cases hpf : pairFind idPairs t.id with
  | none =>
    exact ⟨t, applyCommits_self_mem tracks dcs idPairs t ht hpf, rfl, Or.inr rfl⟩
  | some c =>
    refine ⟨{ t with cx := (dcs.getD c (0, 0)).1, cy := (dcs.getD c (0, 0)).2, missed := 0 },
      ?_, rfl, Or.inl rfl⟩
    have himg := List.mem_map_of_mem
      (fun u : Track =>
        match pairFind idPairs u.id with
        | some c =>
          { u with cx := (dcs.getD c (0, 0)).1, cy := (dcs.getD c (0, 0)).2, missed := 0 }
        | none => u) ht
    simpa [applyCommits, hpf] using himg

/-- Tracks coming out of `applyCommits` originate from the input list,
keeping their id; an unmatched one is returned verbatim. -/
theorem applyCommits_origin (tracks : List Track) (dcs : List (Int × Int))
    (idPairs : List (Nat × Nat)) (t2 : Track) (h : t2 ∈ applyCommits tracks dcs idPairs) :
    ∃ u ∈ tracks, t2.id = u.id ∧ (pairFind idPairs u.id = none → t2 = u) := by
  obtain ⟨u, hu, he⟩ := List.mem_map.mp h
  refine ⟨u, hu, ?_, ?_⟩
  · rw [← he]
    cases hpf : pairFind idPairs u.id <;> simp [hpf]
  · intro hfn
    rw [← he]
    simp [hfn]

/-- An unmatched surviving track comes out of `ageUnmatched` with its
counter incremented. -/
theorem ageUnmatched_mem_of (l : List Track) (mids : List Nat) (maxDis : Nat)
    (t : Track) (ht : t ∈ l) (hmid : t.id ∉ mids) (hkeep : t.missed + 1 ≤ maxDis) :
    { t with missed := t.missed + 1 } ∈ ageUnmatched l mids maxDis := by
  apply List.mem_filter.mpr
  refine ⟨?_, decide_eq_true hkeep⟩
  have himg := List.mem_map_of_mem
    (fun u : Track => if u.id ∈ mids then u else { u with missed := u.missed + 1 }) ht
  simpa [ageUnmatched, if_neg hmid] using himg

/-- Tracks coming out of `ageUnmatched` originate from the input list,
keeping their id, within the disappearance bound, and an unmatched one was
incremented. -/
theorem ageUnmatched_origin (l : List Track) (mids : List Nat) (maxDis : Nat)
    (t2 : Track) (h : t2 ∈ ageUnmatched l mids maxDis) :
    ∃ v ∈ l, t2.id = v.id ∧ t2.missed ≤ maxDis ∧
      (v.id ∉ mids → t2 = { v with missed := v.missed + 1 }) := by
  obtain ⟨hmem, hpred⟩ := List.mem_filter.mp h
  obtain ⟨v, hv, he⟩ := List.mem_map.mp hmem
  refine ⟨v, hv, ?_, by simpa using hpred, ?_⟩
  · rw [← he]
    split <;> rfl
  · intro hmid
    rw [← he, if_neg hmid]

/-- C3 (amended): `SortTracker.update` with detections present and existing
tracks handles unmatched elements by branch, never both ways at once.  When
tracks are at least as many as detections, no detection is ever registered
(`next_object_id` is unchanged) and every unmatched track's `missed_frames`
is incremented — the track surviving exactly when the incremented counter
stays within `max_disappeared`.  When detections outnumber tracks, no track
ages or is deregistered (every id survives, with counter reset to 0 if
matched and unchanged otherwise) and exactly the unclaimed detections are
registered as new tracks. -/
theorem c3_amended_unmatched_by_branch (s : SortState) (rects : List Rect)
    (hT : s.tracks ≠ []) (hR : rects ≠ [])
    (hN : (s.tracks.map Track.id).Nodup) :
    (rects.length ≤ s.tracks.length →
      (sortUpdate s rects).nextId = s.nextId ∧
      ∀ t ∈ s.tracks,
        t.id ∉ matchedIds s.tracks
            (commitPairs (s.tracks.map fun u => (u.cx, u.cy)) (rects.map centroidOf)
              s.maxDistance) →
          (t.missed + 1 ≤ s.maxDisappeared →
            ∃ t2 ∈ (sortUpdate s rects).tracks, t2.id = t.id ∧ t2.missed = t.missed + 1) ∧
          (s.maxDisappeared < t.missed + 1 →
            ∀ t2 ∈ (sortUpdate s rects).tracks, t2.id ≠ t.id)) ∧
    (s.tracks.length < rects.length →
      (∀ t ∈ s.tracks, ∃ t2 ∈ (sortUpdate s rects).tracks, t2.id = t.id ∧
        (t2.missed = 0 ∨ t2.missed = t.missed)) ∧
      (sortUpdate s rects).nextId = s.nextId +
        (unusedCols (rects.map centroidOf).length
          (commitPairs (s.tracks.map fun u => (u.cx, u.cy)) (rects.map centroidOf)
            s.maxDistance)).length) := by
  have hre : rects.isEmpty = false := by
    cases hc : rects with
    | nil => exact absurd hc hR
    | cons a l => rfl
  have hte : s.tracks.isEmpty = false := by
    cases hc : s.tracks with
    | nil => exact absurd hc hT
    | cons a l => rfl
  have hinj := List.inj_on_of_nodup_map hN
  constructor
  · intro h
    have hb1 : sortUpdate s rects =
        { s with
          tracks :=
            ageUnmatched
              (applyCommits s.tracks (rects.map centroidOf)
                (matchedIdPairs s.tracks
                  (commitPairs (s.tracks.map fun u => (u.cx, u.cy)) (rects.map centroidOf)
                    s.maxDistance)))
              (matchedIds s.tracks
                (commitPairs (s.tracks.map fun u => (u.cx, u.cy)) (rects.map centroidOf)
                  s.maxDistance))
              s.maxDisappeared } := by
      simp only [sortUpdate, hre, hte, Bool.false_eq_true, if_false, List.length_map]
      rw [if_pos h]
    refine ⟨by rw [hb1], ?_⟩
    intro t ht hmid
    have hfn : pairFind
        (matchedIdPairs s.tracks
          (commitPairs (s.tracks.map fun u => (u.cx, u.cy)) (rects.map centroidOf)
            s.maxDistance)) t.id = none := by
      apply pairFind_none
      intro q hq hqt
      exact hmid (hqt ▸ List.mem_map_of_mem Prod.fst hq)
    have hft := applyCommits_self_mem s.tracks (rects.map centroidOf) _ t ht hfn
    constructor
    · intro hkeep
      refine ⟨{ t with missed := t.missed + 1 }, ?_, rfl, rfl⟩
      rw [hb1]
      exact ageUnmatched_mem_of _ _ _ t hft hmid hkeep
    · intro hdrop t2 ht2 heq
      rw [hb1] at ht2
      obtain ⟨v, hv, ht2v, _, hinc⟩ := ageUnmatched_origin _ _ _ t2 ht2
      obtain ⟨u, hu, hvu, hunm⟩ := applyCommits_origin _ _ _ v hv
      have huid : u.id = t.id := by rw [← hvu, ← ht2v, heq]
      have hut : u = t := hinj hu ht huid
      subst hut
      have hvt : v = u := hunm hfn
      subst hvt
      have ht2e : t2 = { v with missed := v.missed + 1 } := hinc (hvu ▸ hmid)
      have := (List.mem_filter.mp ht2).2
      rw [ht2e] at this
      simp only [decide_eq_true_eq] at this
      omega
  · intro h
    have hb2 : sortUpdate s rects =
        registerAll
          { s with
            tracks :=
              applyCommits s.tracks (rects.map centroidOf)
                (matchedIdPairs s.tracks
                  (commitPairs (s.tracks.map fun u => (u.cx, u.cy)) (rects.map centroidOf)
                    s.maxDistance)) }
          ((unusedCols (rects.map centroidOf).length
            (commitPairs (s.tracks.map fun u => (u.cx, u.cy)) (rects.map centroidOf)
              s.maxDistance)).map fun c => (rects.map centroidOf).getD c (0, 0)) := by
      simp only [sortUpdate, hre, hte, Bool.false_eq_true, if_false, List.length_map]
      rw [if_neg (not_le.mpr h)]
    constructor
    · intro t ht
      rw [hb2]
      obtain ⟨t2, ht2, hid, hmiss⟩ :=
        applyCommits_exists s.tracks (rects.map centroidOf)
          (matchedIdPairs s.tracks
            (commitPairs (s.tracks.map fun u => (u.cx, u.cy)) (rects.map centroidOf)
              s.maxDistance)) t ht
      exact ⟨t2, registerAll_sub _ _ _ ht2, hid, hmiss⟩
    · rw [hb2, registerAll_nextId]
      simp

/-- C3 witness: the amended branch behavior evaluated on one track at the
origin and one far-away detection. -/
theorem c3_amended_unmatched_by_branch_witness :
    (sortUpdate ⟨[⟨0, 0, 0, 0⟩], 1, 20, 80⟩ [⟨999, 999, 1001, 1001⟩]).nextId = 1 ∧
    ∃ t2 ∈ (sortUpdate ⟨[⟨0, 0, 0, 0⟩], 1, 20, 80⟩ [⟨999, 999, 1001, 1001⟩]).tracks,
      t2.id = 0 ∧ t2.missed = 0 + 1 :=
  have h := (c3_amended_unmatched_by_branch ⟨[⟨0, 0, 0, 0⟩], 1, 20, 80⟩
    [⟨999, 999, 1001, 1001⟩] (by decide) (by decide) (by decide)).1 (by decide)
  ⟨h.1, (h.2 ⟨0, 0, 0, 0⟩ (by decide) (by decide)).1 (by decide)⟩

/-- Inserting into a key-sorted list is a permutation of consing. -/
theorem insKey_perm {α : Type} (key : α → Int) (x : α) (l : List α) :
    List.Perm (insKey key x l) (x :: l) := by
  induction l with
  | nil => exact List.Perm.refl _
  | cons y ys ih =>
    simp only [insKey]
    split
    · exact List.Perm.refl _
    · exact (ih.cons y).trans (List.Perm.swap x y ys)

/-- The insertion-sort fold permutes its input. -/
theorem keySortAux_perm {α : Type} (key : α → Int) (l : List α) :
    ∀ acc : List α, List.Perm (l.foldl (fun a x => insKey key x a) acc) (acc ++ l) := by
  induction l with
  | nil => intro acc; simp
  | cons x xs ih =>
    intro acc
    simp only [List.foldl_cons]
    exact ((ih _).trans ((insKey_perm key x acc).append_right xs)).trans
      List.perm_middle.symm

/-- `keySort` permutes its input. -/
theorem keySort_perm {α : Type} (key : α → Int) (l : List α) :
    List.Perm (keySort key l) l := by
  simpa using keySortAux_perm key l []

/-- The sorted row list has no duplicate rows. -/
theorem sortedRows_nodup (tcs dcs : List (Int × Int)) : (sortedRows tcs dcs).Nodup :=
  ((keySort_perm (rowMinOf tcs dcs) (List.range tcs.length)).nodup_iff).mpr
    (List.nodup_range _)

/-- The numpy-style association loop of `SortTracker.update` coincides with
the direct row-greedy recursion once the processed rows are distinct and
disjoint from the accumulator. -/
theorem commitLoop_eq_rowGreedy (tcs dcs : List (Int × Int)) (maxDist : Nat) :
    ∀ (rows : List Nat) (acc : List (Nat × Nat)),
      rows.Nodup → (∀ r ∈ rows, r ∉ acc.map Prod.fst) →
      commitLoop tcs dcs maxDist
          (rows.map fun r => (r, argminL (rowDists (tcs.getD r (0, 0)) dcs))) acc
        = acc.reverse ++ rowGreedyLoop tcs dcs maxDist rows (acc.map Prod.snd) := by
  intro rows
  induction rows with
  | nil =>
    intro acc _ _
    simp [commitLoop, rowGreedyLoop]
  | cons r rest ih =>
    intro acc hnd hdis
    have hr : r ∉ acc.map Prod.fst := hdis r (List.mem_cons_self _ _)
    simp only [List.map_cons, commitLoop, rowGreedyLoop]
    by_cases hc : argminL (rowDists (tcs.getD r (0, 0)) dcs) ∈ acc.map Prod.snd
    · rw [if_pos (Or.inr hc), if_pos hc]
      exact ih acc hnd.of_cons fun r2 h2 => hdis r2 (List.mem_cons_of_mem _ h2)
    · rw [if_neg (fun hor => hor.elim hr hc), if_neg hc]
      by_cases hfar : distSq (tcs.getD r (0, 0))
          (dcs.getD (argminL (rowDists (tcs.getD r (0, 0)) dcs)) (0, 0)) > (maxDist : Int) ^ 2
      · rw [if_pos hfar, if_pos hfar]
        exact ih acc hnd.of_cons fun r2 h2 => hdis r2 (List.mem_cons_of_mem _ h2)
      · rw [if_neg hfar, if_neg hfar]
        have hdis2 : ∀ r2 ∈ rest,
            r2 ∉ ((r, argminL (rowDists (tcs.getD r (0, 0)) dcs)) :: acc).map Prod.fst := by
          intro r2 h2 hmem
          rcases List.mem_cons.mp hmem with h3 | h3
          · have hr2 : r2 = r := h3
            exact (List.nodup_cons.mp hnd).1 (hr2 ▸ h2)
          · exact hdis r2 (List.mem_cons_of_mem _ h2) h3
        rw [ih ((r, argminL (rowDists (tcs.getD r (0, 0)) dcs)) :: acc) hnd.of_cons hdis2]
        simp [List.append_assoc]

/-- C5 (amended): the associations `SortTracker.update` commits are exactly
those of the row-greedy reference policy — tracks processed in ascending
order of their minimum distance to any detection, each paired only with its
nearest detection, committed iff that detection is unclaimed and within
`max_distance` — not those of the spec's all-pairs greedy. -/
theorem c5_amended_row_greedy (tcs dcs : List (Int × Int)) (maxDist : Nat) :
    commitPairs tcs dcs maxDist = rowGreedyRef tcs dcs maxDist := by
  have h := commitLoop_eq_rowGreedy tcs dcs maxDist (sortedRows tcs dcs) []
    (sortedRows_nodup tcs dcs) (by simp)
  simpa [commitPairs, rowGreedyRef] using h

end YoloCount
